import Mathlib

/-!
Verification of the auth-log scanner core (`Week6/AuthLogScanner.py`):
a shallow embedding of `parse_log_line` and `count_failed_logins`,
followed by theorems settling the specification claims.

Strings are modelled as Lean `String`/`List Char` (Python code points);
the regular expressions `TIMESTAMP_RE` and `TOKEN_RE` are embedded as
explicit matchers with the same backtracking semantics; the field
dictionary is an insertion-ordered association list whose values are
`none`, a string, or a list of optional strings (mirroring the Python
values `None`, `str`, `list`).  Character classes (`\d`, `\s`, `.lower()`,
`.upper()`) are modelled over ASCII, matching the explicit ASCII ranges
of the source regexes.
-/

namespace AuthLog

/-- Python whitespace test (`str.isspace` / `strip`), ASCII range. -/
def isPySpace (c : Char) : Bool :=
  c == ' ' || c == '\t' || c == '\n' || c == '\r' || c == '\x0b' || c == '\x0c'

/-- The single-quote character (code point 39). -/
def sqChar : Char := Char.ofNat 39

/-- Inputs fed to `parse_log_line`: a string, `None`, or any other object
(represented by the string `str()` renders it to); mirrors the coercion
at the top of `parse_log_line`. -/
inductive PyObj where
  | pynone : PyObj
  | pystr : String → PyObj
  | pyother : String → PyObj
deriving DecidableEq

/-- `line = "" if line is None else str(line)` (identity on strings). -/
def pyStr : PyObj → String
  | .pynone => ""
  | .pystr s => s
  | .pyother r => r

/-- `s.rstrip("\n")`: drop every trailing newline character. -/
def rstripNl (cs : List Char) : List Char :=
  (cs.reverse.dropWhile (fun c => c == '\n')).reverse

/-- The character list the parser works on: `str(line).rstrip("\n")`. -/
def lineChars (line : PyObj) : List Char :=
  rstripNl (pyStr line).data

/-- `TIMESTAMP_RE = ^\d{4}-\d{2}-\d{2} \d{2}:\d{2}:\d{2}$` on the
19-character candidate region. -/
def tsMatch (cs : List Char) : Bool :=
  match cs with
  | [y1, y2, y3, y4, h1, m1, m2, h2, d1, d2, sp, a1, a2, c1, b1, b2, c2, e1, e2] =>
      y1.isDigit && y2.isDigit && y3.isDigit && y4.isDigit && h1 == '-' &&
      m1.isDigit && m2.isDigit && h2 == '-' && d1.isDigit && d2.isDigit &&
      sp == ' ' && a1.isDigit && a2.isDigit && c1 == ':' && b1.isDigit &&
      b2.isDigit && c2 == ':' && e1.isDigit && e2.isDigit
  | _ => false

/-- First character of a key: `[A-Za-z_]`. -/
def isKeyStart (c : Char) : Bool := c.isAlpha || c == '_'

/-- Later characters of a key: `[A-Za-z0-9_\-]`. -/
def isKeyCont (c : Char) : Bool := c.isAlpha || c.isDigit || c == '_' || c == '-'

/-- Backtracking matcher for the quoted-value bodies of `TOKEN_RE`:
`(?:\\.|[^q])*q` anchored at the start, where `q` is the quote character.
Returns the characters consumed by the starred group and the residue
after the closing quote.  The escape alternative `\\.` is preferred
(tried first) at each step and `.` does not match a newline, exactly as
in the Python regex engine. -/
def qScan (q : Char) : List Char → Option (List Char × List Char)
  | [] => Option.none
  | c :: rest =>
    if c = q then some ([], rest)
    else
      Option.orElse
        (if c = '\\' then
           match rest with
           | c2 :: rest2 =>
             if c2 = '\n' then Option.none
             else (qScan q rest2).map (fun p => (c :: c2 :: p.1, p.2))
           | [] => Option.none
         else Option.none)
        (fun _ => (qScan q rest).map (fun p => (c :: p.1, p.2)))

/-- `str.replace` for a two-character pattern: replace every
non-overlapping occurrence of `a` followed by `b` with `r`, left to
right. -/
def replace2 (a b : Char) (r : List Char) : List Char → List Char
  | [] => []
  | [c] => [c]
  | c :: d :: rest =>
    if c = a ∧ d = b then r ++ replace2 a b r rest
    else c :: replace2 a b r (d :: rest)

/-- Decode the escapes of a quoted value:
`.replace('\\q', q).replace('\\n', '\n').replace('\\t', '\t')`. -/
def decodeQuoted (q : Char) (inner : List Char) : String :=
  ⟨replace2 '\\' 't' ['\t'] (replace2 '\\' 'n' ['\n'] (replace2 '\\' q [q] inner))⟩

/-- Bareword alternative `[^\s]+` of `TOKEN_RE`: a non-empty maximal run
of non-whitespace characters. -/
def bareVal (cs : List Char) : Option (String × List Char) :=
  let run := cs.takeWhile (fun c => !isPySpace c)
  if run.isEmpty then Option.none
  else some (⟨run⟩, cs.dropWhile (fun c => !isPySpace c))

/-- The value part of `TOKEN_RE`: double-quoted, else single-quoted,
else bareword, in the source's alternation order. -/
def matchValue (cs : List Char) : Option (String × List Char) :=
  match cs with
  | [] => Option.none
  | c :: inner =>
    if c = '"' then
      match qScan '"' inner with
      | some p => some (decodeQuoted '"' p.1, p.2)
      | Option.none => bareVal cs
    else if c = sqChar then
      match qScan sqChar inner with
      | some p => some (decodeQuoted sqChar p.1, p.2)
      | Option.none => bareVal cs
    else bareVal cs

/-- `TOKEN_RE.match(rest, pos)` at the head of `cs`: an identifier key,
a literal `=`, then a value.  Returns the raw key characters, the
decoded value, and the residue after the match. -/
def tokMatch (cs : List Char) : Option (List Char × String × List Char) :=
  match cs with
  | [] => Option.none
  | c :: rest =>
    if isKeyStart c then
      match rest.dropWhile isKeyCont with
      | d :: afterEq =>
        if d = '=' then
          match matchValue afterEq with
          | some (v, r) => some (c :: rest.takeWhile isKeyCont, v, r)
          | Option.none => Option.none
        else Option.none
      | [] => Option.none
    else Option.none

/-- `key.lower() if normalize_keys else key`, packaged as a string. -/
def normKey (nk : Bool) (k : List Char) : String :=
  if nk then ⟨k.map Char.toLower⟩ else ⟨k⟩

/-- One pass of the tokenizing `while` loop of `parse_log_line`, with
explicit fuel (the loop strictly advances `pos`, so `length + 1` steps
always suffice).  On a match: record the token and skip the following
whitespace run.  On failure: skip up to the next literal space (the
malformed token), then the following whitespace run; stop at end of
input. -/
def tokenizeF (nk : Bool) : Nat → List Char → List (String × String)
  | 0, _ => []
  | fuel + 1, cs =>
    match tokMatch cs with
    | some (k, v, r) => (normKey nk k, v) :: tokenizeF nk fuel (r.dropWhile isPySpace)
    | Option.none =>
      let rem := cs.dropWhile (fun c => c != ' ')
      if rem.isEmpty then []
      else tokenizeF nk fuel (rem.tail.dropWhile isPySpace)

/-- The token stream of the non-timestamp remainder of a line. -/
def tokenize (nk : Bool) (cs : List Char) : List (String × String) :=
  tokenizeF nk (cs.length + 1) cs

/-- A value stored in the parsed-fields dictionary: `None`, a string, or
a list (whose Python elements are strings, or `None` in the dead branch
that wraps the timestamp placeholder). -/
inductive Val where
  | vnone : Val
  | vstr : String → Val
  | vlist : List (Option String) → Val
deriving DecidableEq

/-- The parser's `fields` dictionary: an insertion-ordered association
list, as Python dicts are. -/
abbrev Fields := List (String × Val)

/-- Dictionary lookup (first, and by construction only, binding). -/
def lookupA {α : Type} : List (String × α) → String → Option α
  | [], _ => Option.none
  | e :: rest, k => if e.1 = k then some e.2 else lookupA rest k

/-- `key in dict`. -/
def hasKeyA {α : Type} (l : List (String × α)) (k : String) : Bool :=
  l.any (fun e => e.1 == k)

/-- `dict[key] = v`: overwrite in place if present, else append. -/
def setA {α : Type} : List (String × α) → String → α → List (String × α)
  | [], k, v => [(k, v)]
  | e :: rest, k, v => if e.1 = k then (k, v) :: rest else e :: setA rest k v

/-- Update the value bound to a present key, in place. -/
def updA {α : Type} : List (String × α) → String → (α → α) → List (String × α)
  | [], _, _ => []
  | e :: rest, k, g => if e.1 = k then (e.1, g e.2) :: rest else e :: updA rest k g

/-- The keys of a dictionary, in insertion order. -/
def keysOf {α : Type} (l : List (String × α)) : List String := l.map Prod.fst

/-- The duplicate-accumulation step: wrap a non-list current value into
a singleton list, then append (`fields[key].append(val)`). -/
def appendWrap (cur : Val) (v : String) : Val :=
  match cur with
  | .vlist l => .vlist (l ++ [some v])
  | .vstr s => .vlist [some s, some v]
  | .vnone => .vlist [Option.none, some v]

/-- Merge one token into `fields` per the duplicate policy (source lines
75–83): with `collect_duplicates`, a repeated non-`timestamp` key
accumulates into an ordered list, any other key is assigned
(overwriting `timestamp`); without it, `fields.setdefault(key, val)`. -/
def mergeToken (cd : Bool) (f : Fields) (t : String × String) : Fields :=
  if cd then
    if hasKeyA f t.1 && t.1 != "timestamp" then
      updA f t.1 (fun cur => appendWrap cur t.2)
    else setA f t.1 (Val.vstr t.2)
  else
    if hasKeyA f t.1 then f else f ++ [(t.1, Val.vstr t.2)]

/-- `any(k for k in fields.keys() if k != "timestamp")`: some key other
than `timestamp` that is truthy (non-empty). -/
def has_kv (f : Fields) : Bool :=
  f.any (fun e => e.1 != "timestamp" && e.1 != "")

/-- `fields["timestamp"] is not None` (with a present key), the
resolved-timestamp side of the empty-record check. -/
def tsResolved (f : Fields) : Bool :=
  match lookupA f "timestamp" with
  | some Val.vnone => false
  | some _ => true
  | Option.none => false

/-- The four keyword options of `parse_log_line`; the source defaults
are `true` for all four. -/
structure ParseOpts where
  normalize_keys : Bool
  collect_duplicates : Bool
  warn_on_junk : Bool
  allow_blank_timestamp : Bool
deriving DecidableEq

/-- Steps 1–5 of `parse_log_line`: coercion, trailing-newline strip,
blank rejection, length check, timestamp-region resolution; yields the
timestamp value and the left-stripped token stream. -/
def prepare (line : PyObj) (ab : Bool) : Option (Val × List Char) :=
  let cs := lineChars line
  if cs.all isPySpace then Option.none
  else if cs.length < 19 then Option.none
  else
    let tsF := cs.take 19
    let rest := (cs.drop 19).dropWhile isPySpace
    if tsMatch tsF then some (Val.vstr ⟨tsF⟩, rest)
    else if ab && tsF.all isPySpace then some (Val.vnone, rest)
    else Option.none

/-- Tokenize, fold the tokens into `fields` (which starts as
`{"timestamp": timestamp}`), then apply the empty-record check of
source lines 97–99. -/
def buildRecord (nk cd : Bool) (tsv : Val) (rest : List Char) : Option Fields :=
  let fields := (tokenize nk rest).foldl (mergeToken cd) [("timestamp", tsv)]
  if has_kv fields then some fields
  else
    match lookupA fields "timestamp" with
    | some Val.vnone => Option.none
    | some _ => some fields
    | Option.none => Option.none

/-- `parse_log_line`: a record, or `None` for unparseable lines.  The
source's `try`/`except` wrapper never fires on string inputs; the
function is total here by construction. -/
def parse_log_line (line : PyObj) (opts : ParseOpts) : Option Fields :=
  match prepare line opts.allow_blank_timestamp with
  | Option.none => Option.none
  | some p => buildRecord opts.normalize_keys opts.collect_duplicates p.1 p.2

/-- The options `count_failed_logins` parses with:
`warn_on_junk=False`, everything else default. -/
def aggOpts : ParseOpts := ⟨true, true, false, true⟩

/-- `_as_list`: `None` becomes `[]`, a list stays, anything else is
wrapped into a singleton. -/
def asList : Val → List (Option String)
  | .vnone => []
  | .vstr s => [some s]
  | .vlist l => l

/-- `parsed.get(k)` — `None` when the key is absent. -/
def getVal (f : Fields) (k : String) : Val :=
  match lookupA f k with
  | some v => v
  | Option.none => Val.vnone

/-- `str.upper()`, ASCII range. -/
def pyUpper (s : String) : String := ⟨s.data.map Char.toUpper⟩

/-- `any(s == 'FAIL' for s in (s.upper() for s in _as_list(parsed.get('status'))))`.
The status values reachable from the parser are strings; upper-casing is
mapped over them. -/
def isFail (parsed : Fields) : Bool :=
  ((asList (getVal parsed "status")).map (fun o => o.map pyUpper)).any
    (fun o => o == some "FAIL")

/-- The truthy (`if u:`) values of a scalar-or-list field: non-empty
strings, in order. -/
def truthyVals (l : List (Option String)) : List String :=
  l.filterMap (fun o =>
    match o with
    | some s => if s == "" then Option.none else some s
    | Option.none => Option.none)

/-- `Counter[u] += 1`. -/
def ctrIncr (c : List (String × Nat)) (u : String) : List (String × Nat) :=
  if hasKeyA c u then updA c u (fun n => n + 1) else c ++ [(u, 1)]

/-- A counter's count for a key (0 when absent). -/
def ctrGet (c : List (String × Nat)) (u : String) : Nat :=
  match lookupA c u with
  | some n => n
  | Option.none => 0

/-- `sum(counter.values())`. -/
def sumCtr (c : List (String × Nat)) : Nat := (c.map (fun e => e.2)).sum

/-- The aggregator's mutable state during `count_failed_logins`. -/
structure AccState where
  users : List (String × Nat)
  ips : List (String × Nat)
  seen : Nat
  counted : Nat
  skipped : Nat
deriving DecidableEq

/-- One iteration of the aggregation loop (source lines 127–146). -/
def aggStep (st : AccState) (line : PyObj) : AccState :=
  match parse_log_line line aggOpts with
  | Option.none => ⟨st.users, st.ips, st.seen, st.counted, st.skipped + 1⟩
  | some parsed =>
    if isFail parsed then
      ⟨(truthyVals (asList (getVal parsed "user"))).foldl ctrIncr st.users,
       (truthyVals (asList (getVal parsed "ip"))).foldl ctrIncr st.ips,
       st.seen + 1, st.counted + 1, st.skipped⟩
    else ⟨st.users, st.ips, st.seen + 1, st.counted, st.skipped⟩

/-- The effect of merging one more occurrence of a key on that key's
current binding under `collect_duplicates=true` (absent: assign; present:
wrap/append). -/
def combineStep (cur : Option Val) (v : String) : Val :=
  match cur with
  | some c => appendWrap c v
  | Option.none => Val.vstr v

/-- How many entries of the dictionary are stored under the key
`timestamp` (the parser maintains exactly one). -/
def countTs (f : Fields) : Nat := (keysOf f).count "timestamp"

/-- The snapshot `count_failed_logins` returns. -/
structure Stats where
  users : List (String × Nat)
  ips : List (String × Nat)
  total_fail : Nat
  seen : Nat
  counted : Nat
  skipped : Nat
deriving DecidableEq

/-- `count_failed_logins`: fold the loop over the lines, then build the
snapshot, with the asymmetric `total_fail` fallback of source line 151. -/
def count_failed_logins (lines : List PyObj) : Stats :=
  let acc := lines.foldl aggStep ⟨[], [], 0, 0, 0⟩
  ⟨acc.users, acc.ips,
   if acc.users.isEmpty then sumCtr acc.ips else sumCtr acc.users,
   acc.seen, acc.counted, acc.skipped⟩

/-! ### Association-list lemmas -/

theorem lookupA_none_iff {α : Type} (l : List (String × α)) (k : String) :
    lookupA l k = Option.none ↔ hasKeyA l k = false := by
  induction l with
  | nil => simp [lookupA, hasKeyA]
  | cons e rest ih =>
    by_cases h : e.1 = k
    · simp [lookupA, hasKeyA, h]
    · simp [lookupA, hasKeyA, h, ih]

theorem hasKeyA_some {α : Type} {l : List (String × α)} {k : String}
    (h : hasKeyA l k = true) : ∃ v, lookupA l k = some v := by
  cases hl : lookupA l k with
  | none => rw [lookupA_none_iff] at hl; rw [hl] at h; cases h
  | some v => exact ⟨v, rfl⟩

theorem lookupA_setA_self {α : Type} (l : List (String × α)) (k : String) (v : α) :
    lookupA (setA l k v) k = some v := by
  induction l with
  | nil => simp [setA, lookupA]
  | cons e rest ih =>
    by_cases h : e.1 = k
    · simp [setA, h, lookupA]
    · simp [setA, h, lookupA, ih]

theorem lookupA_setA_ne {α : Type} (l : List (String × α)) (k k' : String) (v : α)
    (h : k' ≠ k) : lookupA (setA l k v) k' = lookupA l k' := by
  have h' : k ≠ k' := Ne.symm h
  induction l with
  | nil => simp [setA, lookupA, h']
  | cons e rest ih =>
    by_cases he : e.1 = k
    · rw [setA, if_pos he, lookupA, lookupA, if_neg h']
      rw [if_neg (he ▸ h' : ¬e.1 = k')]
    · rw [setA, if_neg he, lookupA, lookupA]
      by_cases he' : e.1 = k'
      · rw [if_pos he', if_pos he']
      · rw [if_neg he', if_neg he', ih]

theorem lookupA_updA_self {α : Type} (l : List (String × α)) (k : String)
    (g : α → α) {w : α} (h : lookupA l k = some w) :
    lookupA (updA l k g) k = some (g w) := by
  induction l with
  | nil => simp [lookupA] at h
  | cons e rest ih =>
    by_cases he : e.1 = k
    · rw [lookupA, if_pos he] at h
      rw [updA, if_pos he, lookupA, if_pos he]
      rw [Option.some_inj] at h
      rw [h]
    · rw [lookupA, if_neg he] at h
      rw [updA, if_neg he, lookupA, if_neg he, ih h]

theorem lookupA_updA_ne {α : Type} (l : List (String × α)) (k k' : String)
    (g : α → α) (h : k' ≠ k) : lookupA (updA l k g) k' = lookupA l k' := by
  induction l with
  | nil => simp [updA]
  | cons e rest ih =>
    by_cases he : e.1 = k
    · rw [updA, if_pos he, lookupA, lookupA]
      rw [if_neg (he ▸ Ne.symm h : ¬e.1 = k'), if_neg (he ▸ Ne.symm h : ¬e.1 = k')]
    · rw [updA, if_neg he, lookupA, lookupA]
      by_cases he' : e.1 = k'
      · rw [if_pos he', if_pos he']
      · rw [if_neg he', if_neg he', ih]

theorem lookupA_append {α : Type} (l m : List (String × α)) (k : String) :
    lookupA (l ++ m) k =
      (match lookupA l k with
       | some v => some v
       | Option.none => lookupA m k) := by
  induction l with
  | nil => simp [lookupA]
  | cons e rest ih =>
    by_cases he : e.1 = k
    · simp [lookupA, he]
    · simp [lookupA, he, ih]

theorem keysOf_setA {α : Type} (l : List (String × α)) (k : String) (v : α) :
    keysOf (setA l k v) = if hasKeyA l k then keysOf l else keysOf l ++ [k] := by
  induction l with
  | nil => simp [setA, keysOf, hasKeyA]
  | cons e rest ih =>
    by_cases he : e.1 = k
    · simp [setA, he, keysOf, hasKeyA]
    · have hcons : hasKeyA (e :: rest) k = hasKeyA rest k := by
        unfold hasKeyA
        rw [List.any_cons, beq_eq_false_iff_ne.mpr he, Bool.false_or]
      cases hr : hasKeyA rest k with
      | true =>
        rw [if_pos hr] at ih
        rw [setA, if_neg he, hcons, if_pos hr]
        show e.1 :: keysOf (setA rest k v) = e.1 :: keysOf rest
        rw [ih]
      | false =>
        rw [hr, if_neg (by simp)] at ih
        rw [setA, if_neg he, hcons, hr, if_neg (by simp)]
        show e.1 :: keysOf (setA rest k v) = (e.1 :: keysOf rest) ++ [k]
        rw [ih]; rfl

theorem keysOf_updA {α : Type} (l : List (String × α)) (k : String) (g : α → α) :
    keysOf (updA l k g) = keysOf l := by
  induction l with
  | nil => simp [updA]
  | cons e rest ih =>
    by_cases he : e.1 = k
    · rw [updA, if_pos he]
      show e.1 :: keysOf rest = keysOf (e :: rest)
      rfl
    · rw [updA, if_neg he]
      show e.1 :: keysOf (updA rest k g) = e.1 :: keysOf rest
      rw [ih]

theorem hasKeyA_iff_mem {α : Type} (l : List (String × α)) (k : String) :
    hasKeyA l k = true ↔ k ∈ keysOf l := by
  simp [hasKeyA, keysOf, List.any_eq_true, List.mem_map]

/-! ### Lemmas about merging a single token into the fields dictionary -/

theorem merge_keys (cd : Bool) (f : Fields) (t : String × String) :
    (hasKeyA f t.1 = true ∧ keysOf (mergeToken cd f t) = keysOf f) ∨
    (hasKeyA f t.1 = false ∧ keysOf (mergeToken cd f t) = keysOf f ++ [t.1]) := by
  cases hk : hasKeyA f t.1 with
  | true =>
    left
    refine ⟨rfl, ?_⟩
    cases cd with
    | false => simp only [mergeToken, Bool.false_eq_true, if_false, hk, if_true]
    | true =>
      cases hb : (t.1 != "timestamp") with
      | true =>
        simp only [mergeToken, if_true, hk, hb, Bool.and_self, keysOf_updA]
      | false =>
        simp only [mergeToken, if_true, hk, hb, Bool.and_false, Bool.false_eq_true,
          if_false, keysOf_setA, if_pos hk]
  | false =>
    right
    refine ⟨rfl, ?_⟩
    cases cd with
    | false =>
      simp only [mergeToken, Bool.false_eq_true, if_false, hk, keysOf]
      rw [List.map_append]
      rfl
    | true =>
      simp only [mergeToken, if_true, hk, Bool.false_and, Bool.false_eq_true, if_false,
        keysOf_setA, hk]

theorem merge_lookup_ne (cd : Bool) (f : Fields) (t : String × String) (k : String)
    (h : t.1 ≠ k) : lookupA (mergeToken cd f t) k = lookupA f k := by
  cases cd with
  | true =>
    by_cases hc : (hasKeyA f t.1 && t.1 != "timestamp") = true
    · simp only [mergeToken, if_true, if_pos hc]
      exact lookupA_updA_ne f t.1 k _ (Ne.symm h)
    · simp only [mergeToken, if_true, if_neg hc]
      exact lookupA_setA_ne f t.1 k _ (Ne.symm h)
  | false =>
    by_cases hk : hasKeyA f t.1 = true
    · simp only [mergeToken, Bool.false_eq_true, if_false, if_pos hk]
    · simp only [mergeToken, Bool.false_eq_true, if_false, if_neg hk]
      rw [lookupA_append]
      cases hl : lookupA f k with
      | some v => rfl
      | none => simp [lookupA, h]

theorem merge_hasKey_self (cd : Bool) (f : Fields) (t : String × String) :
    hasKeyA (mergeToken cd f t) t.1 = true := by
  rcases merge_keys cd f t with ⟨hk, he⟩ | ⟨hk, he⟩
  · rw [hasKeyA_iff_mem, he]
    exact (hasKeyA_iff_mem f t.1).mp hk
  · rw [hasKeyA_iff_mem, he]
    exact List.mem_append_right _ (List.mem_singleton_self t.1)

theorem merge_hasKey_mono (cd : Bool) (f : Fields) (t : String × String) (k : String)
    (h : hasKeyA f k = true) : hasKeyA (mergeToken cd f t) k = true := by
  rcases merge_keys cd f t with ⟨hk, he⟩ | ⟨hk, he⟩
  · rw [hasKeyA_iff_mem, he]
    exact (hasKeyA_iff_mem f k).mp h
  · rw [hasKeyA_iff_mem, he]
    exact List.mem_append_left _ ((hasKeyA_iff_mem f k).mp h)

theorem merge_lookup_ts_assign (f : Fields) (t : String × String)
    (h : t.1 = "timestamp") :
    lookupA (mergeToken true f t) "timestamp" = some (Val.vstr t.2) := by
  have hb : (t.1 != "timestamp") = false := by
    rw [bne_eq_false_iff_eq]
    exact h
  simp only [mergeToken, if_true, hb, Bool.and_false, Bool.false_eq_true, if_false]
  rw [← h]
  exact lookupA_setA_self f t.1 (Val.vstr t.2)

theorem merge_lookup_self_true (f : Fields) (k v : String) (h : k ≠ "timestamp") :
    lookupA (mergeToken true f (k, v)) k = some (combineStep (lookupA f k) v) := by
  have hb : ((k, v).1 != "timestamp") = true := bne_iff_ne.mpr h
  cases hk : hasKeyA f k with
  | true =>
    obtain ⟨w, hw⟩ := hasKeyA_some hk
    simp only [mergeToken, if_true, hk, hb, Bool.and_self, if_true]
    rw [lookupA_updA_self f k _ hw, hw]
    rfl
  | false =>
    simp only [mergeToken, if_true, hk, Bool.false_and, Bool.false_eq_true, if_false]
    rw [lookupA_setA_self, (lookupA_none_iff f k).mpr hk]
    rfl

theorem merge_lookup_self_false (f : Fields) (k v : String) :
    lookupA (mergeToken false f (k, v)) k =
      (match lookupA f k with
       | some w => some w
       | Option.none => some (Val.vstr v)) := by
  cases hk : hasKeyA f k with
  | true =>
    obtain ⟨w, hw⟩ := hasKeyA_some hk
    simp only [mergeToken, Bool.false_eq_true, if_false, hk, if_true, hw]
  | false =>
    simp only [mergeToken, Bool.false_eq_true, if_false, hk, if_false]
    rw [lookupA_append, (lookupA_none_iff f k).mpr hk]
    simp [lookupA]

/-! ### Lemmas about folding a token stream into the fields dictionary -/

theorem fold_lookup_ne (cd : Bool) (k : String) :
    ∀ (toks : List (String × String)) (f : Fields),
      (∀ t ∈ toks, t.1 ≠ k) →
      lookupA (toks.foldl (mergeToken cd) f) k = lookupA f k := by
  intro toks
  induction toks with
  | nil => intro f _; rfl
  | cons t rest ih =>
    intro f h
    rw [List.foldl_cons, ih _ (fun t' ht' => h t' (List.mem_cons_of_mem t ht')),
      merge_lookup_ne cd f t k (h t (List.mem_cons_self t rest))]

theorem fold_lookup_true (k : String) (h : k ≠ "timestamp") :
    ∀ (toks : List (String × String)) (f : Fields),
      lookupA (toks.foldl (mergeToken true) f) k =
        ((toks.filter (fun t => t.1 == k)).map Prod.snd).foldl
          (fun cur v => some (combineStep cur v)) (lookupA f k) := by
  intro toks
  induction toks with
  | nil => intro f; rfl
  | cons t rest ih =>
    intro f
    obtain ⟨k1, v1⟩ := t
    rw [List.foldl_cons]
    by_cases ht : k1 = k
    · subst ht
      rw [ih]
      have hf : ((k1, v1) :: rest).filter (fun t => t.1 == k1) =
          (k1, v1) :: rest.filter (fun t => t.1 == k1) := by
        simp [List.filter_cons]
      rw [hf, List.map_cons, List.foldl_cons, merge_lookup_self_true f k1 v1 h]
    · rw [ih]
      have hf : ((k1, v1) :: rest).filter (fun t => t.1 == k) =
          rest.filter (fun t => t.1 == k) := by
        simp [List.filter_cons, ht]
      rw [hf, merge_lookup_ne true f (k1, v1) k ht]

theorem fold_lookup_false (k : String) :
    ∀ (toks : List (String × String)) (f : Fields),
      lookupA (toks.foldl (mergeToken false) f) k =
        (match lookupA f k with
         | some w => some w
         | Option.none =>
           ((toks.filter (fun t => t.1 == k)).head?).map (fun t => Val.vstr t.2)) := by
  intro toks
  induction toks with
  | nil =>
    intro f
    rw [List.foldl_nil]
    cases hl : lookupA f k with
    | some w => rfl
    | none => rfl
  | cons t rest ih =>
    intro f
    obtain ⟨k1, v1⟩ := t
    rw [List.foldl_cons]
    by_cases ht : k1 = k
    · subst ht
      rw [ih, merge_lookup_self_false f k1 v1]
      cases hl : lookupA f k1 with
      | some w => rfl
      | none =>
        have hf : ((k1, v1) :: rest).filter (fun t => t.1 == k1) =
            (k1, v1) :: rest.filter (fun t => t.1 == k1) := by
          simp [List.filter_cons]
        rw [hf]
        rfl
    · rw [ih, merge_lookup_ne false f (k1, v1) k ht]
      have hf : ((k1, v1) :: rest).filter (fun t => t.1 == k) =
          rest.filter (fun t => t.1 == k) := by
        simp [List.filter_cons, ht]
      rw [hf]

theorem fold_lookup_ts_true :
    ∀ (toks : List (String × String)) (f : Fields),
      lookupA (toks.foldl (mergeToken true) f) "timestamp" =
        (toks.filter (fun t => t.1 == "timestamp")).foldl
          (fun _ t => some (Val.vstr t.2)) (lookupA f "timestamp") := by
  intro toks
  induction toks with
  | nil => intro f; rfl
  | cons t rest ih =>
    intro f
    obtain ⟨k1, v1⟩ := t
    rw [List.foldl_cons]
    by_cases ht : k1 = "timestamp"
    · have hf : ((k1, v1) :: rest).filter (fun t => t.1 == "timestamp") =
          (k1, v1) :: rest.filter (fun t => t.1 == "timestamp") := by
        simp [List.filter_cons, ht]
      rw [ih, hf, List.foldl_cons, merge_lookup_ts_assign f (k1, v1) ht]
    · have hf : ((k1, v1) :: rest).filter (fun t => t.1 == "timestamp") =
          rest.filter (fun t => t.1 == "timestamp") := by
        simp [List.filter_cons, ht]
      rw [ih, hf, merge_lookup_ne true f (k1, v1) "timestamp" ht]

theorem foldl_last_vstr :
    ∀ (l : List (String × String)) (init : Option Val) (a : String × String),
      l.getLast? = some a →
      l.foldl (fun _ t => some (Val.vstr t.2)) init = some (Val.vstr a.2) := by
  intro l
  induction l with
  | nil => intro init a h; simp at h
  | cons t rest ih =>
    intro init a h
    cases rest with
    | nil =>
      simp [List.getLast?] at h
      subst h
      rfl
    | cons r rs =>
      rw [List.getLast?_cons_cons] at h
      rw [List.foldl_cons]
      exact ih _ a h

theorem fold_hasKey_mono (cd : Bool) (k : String) :
    ∀ (toks : List (String × String)) (f : Fields),
      hasKeyA f k = true →
      hasKeyA (toks.foldl (mergeToken cd) f) k = true := by
  intro toks
  induction toks with
  | nil => intro f h; exact h
  | cons t rest ih =>
    intro f h
    rw [List.foldl_cons]
    exact ih _ (merge_hasKey_mono cd f t k h)

theorem fold_hasKey (cd : Bool) :
    ∀ (toks : List (String × String)) (f : Fields) (t : String × String),
      t ∈ toks → hasKeyA (toks.foldl (mergeToken cd) f) t.1 = true := by
  intro toks
  induction toks with
  | nil => intro f t ht; cases ht
  | cons hd rest ih =>
    intro f t ht
    rw [List.foldl_cons]
    rcases List.mem_cons.mp ht with heq | hmem
    · subst heq
      exact fold_hasKey_mono cd t.1 rest _ (merge_hasKey_self cd f t)
    · exact ih _ t hmem

theorem has_kv_keys (f : Fields) :
    has_kv f = (keysOf f).any (fun s => s != "timestamp" && s != "") := by
  induction f with
  | nil => rfl
  | cons e rest ih =>
    unfold has_kv keysOf at ih ⊢
    rw [List.map_cons, List.any_cons, List.any_cons, ih]

theorem merge_has_kv (cd : Bool) (f : Fields) (t : String × String) :
    has_kv (mergeToken cd f t) = (has_kv f || (t.1 != "timestamp" && t.1 != "")) := by
  rcases merge_keys cd f t with ⟨hk, he⟩ | ⟨hk, he⟩
  · rw [has_kv_keys, he, ← has_kv_keys]
    cases hc : (t.1 != "timestamp" && t.1 != "") with
    | false => rw [Bool.or_false]
    | true =>
      have hm : t.1 ∈ keysOf f := (hasKeyA_iff_mem f t.1).mp hk
      have hv : has_kv f = true := by
        rw [has_kv_keys]
        exact List.any_eq_true.mpr ⟨t.1, hm, hc⟩
      rw [hv, Bool.true_or]
  · rw [has_kv_keys, he, List.any_append, ← has_kv_keys,
      show ([t.1].any (fun s => s != "timestamp" && s != "")) =
        (t.1 != "timestamp" && t.1 != "") from by
          rw [List.any_cons, List.any_nil, Bool.or_false]]

theorem fold_has_kv (cd : Bool) :
    ∀ (toks : List (String × String)) (f : Fields),
      has_kv (toks.foldl (mergeToken cd) f) =
        (has_kv f || toks.any (fun t => t.1 != "timestamp" && t.1 != "")) := by
  intro toks
  induction toks with
  | nil => intro f; rw [List.foldl_nil, List.any_nil, Bool.or_false]
  | cons t rest ih =>
    intro f
    rw [List.foldl_cons, ih, merge_has_kv, List.any_cons, Bool.or_assoc]

theorem merge_countTs (cd : Bool) (f : Fields) (t : String × String)
    (h : hasKeyA f "timestamp" = true) :
    countTs (mergeToken cd f t) = countTs f := by
  rcases merge_keys cd f t with ⟨hk, he⟩ | ⟨hk, he⟩
  · unfold countTs
    rw [he]
  · have hne : t.1 ≠ "timestamp" := by
      intro hh
      rw [hh, h] at hk
      cases hk
    unfold countTs
    rw [he, List.count_append]
    have hz : List.count "timestamp" [t.1] = 0 := by
      simp [List.count_cons, List.count_nil, Ne.symm hne]
    rw [hz, Nat.add_zero]

theorem fold_countTs (cd : Bool) :
    ∀ (toks : List (String × String)) (f : Fields),
      hasKeyA f "timestamp" = true →
      countTs (toks.foldl (mergeToken cd) f) = countTs f ∧
      hasKeyA (toks.foldl (mergeToken cd) f) "timestamp" = true := by
  intro toks
  induction toks with
  | nil => intro f h; exact ⟨rfl, h⟩
  | cons t rest ih =>
    intro f h
    have h' : hasKeyA (mergeToken cd f t) "timestamp" = true :=
      merge_hasKey_mono cd f t "timestamp" h
    obtain ⟨h1, h2⟩ := ih (mergeToken cd f t) h'
    constructor
    · rw [List.foldl_cons, h1, merge_countTs cd f t h]
    · rw [List.foldl_cons]
      exact h2

/-! ### Tokenizer lemmas: consumed length, fuel adequacy, key shape -/

theorem dropWhile_length_le {α : Type} (p : α → Bool) (l : List α) :
    (l.dropWhile p).length ≤ l.length := by
  induction l with
  | nil => simp
  | cons a rest ih =>
    rw [List.dropWhile_cons]
    by_cases hp : p a = true
    · rw [if_pos hp]
      exact Nat.le_succ_of_le ih
    · rw [if_neg hp]

theorem opt_orElse_some {α : Type} (a : α) (f : Unit → Option α) :
    Option.orElse (some a) f = some a := rfl

theorem opt_orElse_none {α : Type} (f : Unit → Option α) :
    Option.orElse Option.none f = f () := rfl

theorem qScan_length (q : Char) :
    ∀ (n : Nat) (cs : List Char) (p : List Char × List Char),
      cs.length ≤ n → qScan q cs = some p → p.2.length < cs.length := by
  intro n
  induction n with
  | zero =>
    intro cs p hle h
    cases cs with
    | nil => simp [qScan.eq_def] at h
    | cons c rest => simp at hle
  | succ m ih =>
    intro cs p hle h
    cases cs with
    | nil => simp [qScan.eq_def] at h
    | cons c rest =>
      rw [qScan.eq_def] at h
      simp only [] at h
      by_cases hq : c = q
      · rw [if_pos hq, Option.some_inj] at h
        subst h
        simp
      · rw [if_neg hq] at h
        by_cases hb : c = '\\'
        · rw [if_pos hb] at h
          cases rest with
          | nil =>
            simp only [] at h
            rw [opt_orElse_none] at h
            simp [qScan.eq_def] at h
          | cons c2 rest2 =>
            simp only [] at h
            by_cases hn : c2 = '\n'
            · rw [if_pos hn, opt_orElse_none] at h
              rw [Option.map_eq_some'] at h
              obtain ⟨p0, hp0, hpe⟩ := h
              have hlt := ih (c2 :: rest2) p0 (by simp at hle ⊢; omega) hp0
              rw [← hpe]
              simp at hlt ⊢
              omega
            · rw [if_neg hn] at h
              cases hscan : qScan q rest2 with
              | some p0 =>
                rw [hscan, Option.map_some', opt_orElse_some, Option.some_inj] at h
                subst h
                have hlt := ih rest2 p0 (by simp at hle ⊢; omega) hscan
                simp at hlt ⊢
                omega
              | none =>
                rw [hscan, Option.map_none', opt_orElse_none] at h
                rw [Option.map_eq_some'] at h
                obtain ⟨p0, hp0, hpe⟩ := h
                have hlt := ih (c2 :: rest2) p0 (by simp at hle ⊢; omega) hp0
                rw [← hpe]
                simp at hlt ⊢
                omega
        · rw [if_neg hb, opt_orElse_none] at h
          rw [Option.map_eq_some'] at h
          obtain ⟨p0, hp0, hpe⟩ := h
          have hlt := ih rest p0 (by simp at hle ⊢; omega) hp0
          rw [← hpe]
          simp at hlt ⊢
          omega

theorem bareVal_length (cs : List Char) (p : String × List Char)
    (h : bareVal cs = some p) : p.2.length < cs.length := by
  simp only [bareVal] at h
  by_cases he : (cs.takeWhile (fun c => !isPySpace c)).isEmpty = true
  · rw [if_pos he] at h
    cases h
  · rw [if_neg he] at h
    rw [Option.some_inj] at h
    subst h
    have hsum : (cs.takeWhile (fun c => !isPySpace c)).length +
        (cs.dropWhile (fun c => !isPySpace c)).length = cs.length := by
      rw [← List.length_append, List.takeWhile_append_dropWhile]
    have hpos : 0 < (cs.takeWhile (fun c => !isPySpace c)).length := by
      cases htw : cs.takeWhile (fun c => !isPySpace c) with
      | nil => rw [htw] at he; simp at he
      | cons x xs => simp
    simp only []
    omega

theorem matchValue_length (cs : List Char) (p : String × List Char)
    (h : matchValue cs = some p) : p.2.length < cs.length := by
  cases cs with
  | nil => simp [matchValue] at h
  | cons c inner =>
    rw [matchValue] at h
    by_cases hd : c = '"'
    · rw [if_pos hd] at h
      split at h
      · rename_i p0 hs
        rw [Option.some_inj] at h
        subst h
        have := qScan_length '"' inner.length inner p0 (Nat.le_refl _) hs
        simp at this ⊢
        omega
      · exact bareVal_length _ _ h
    · rw [if_neg hd] at h
      by_cases hsq : c = sqChar
      · rw [if_pos hsq] at h
        split at h
        · rename_i p0 hs
          rw [Option.some_inj] at h
          subst h
          have := qScan_length sqChar inner.length inner p0 (Nat.le_refl _) hs
          simp at this ⊢
          omega
        · exact bareVal_length _ _ h
      · rw [if_neg hsq] at h
        exact bareVal_length _ _ h

theorem tokMatch_length (cs : List Char) (k : List Char) (v : String) (r : List Char)
    (h : tokMatch cs = some (k, v, r)) : r.length < cs.length := by
  cases cs with
  | nil => simp [tokMatch] at h
  | cons c rest =>
    rw [tokMatch] at h
    by_cases hk : isKeyStart c = true
    · rw [if_pos hk] at h
      split at h
      · rename_i d afterEq heq
        by_cases hd : d = '='
        · rw [if_pos hd] at h
          split at h
          · rename_i v0 r0 hmv
            rw [Option.some_inj, Prod.mk.injEq, Prod.mk.injEq] at h
            obtain ⟨h1, h2, h3⟩ := h
            rw [h3] at hmv
            have hv := matchValue_length afterEq (v0, r) hmv
            have hw : (d :: afterEq).length ≤ rest.length := by
              rw [← heq]
              exact dropWhile_length_le _ _
            simp at hv hw ⊢
            omega
          · cases h
        · rw [if_neg hd] at h
          cases h
      · cases h
    · rw [if_neg hk] at h
      cases h

theorem tokMatch_key_ne (cs : List Char) (k : List Char) (v : String) (r : List Char)
    (h : tokMatch cs = some (k, v, r)) : k ≠ [] := by
  cases cs with
  | nil => simp [tokMatch] at h
  | cons c rest =>
    rw [tokMatch] at h
    by_cases hk : isKeyStart c = true
    · rw [if_pos hk] at h
      split at h
      · rename_i d afterEq heq
        by_cases hd : d = '='
        · rw [if_pos hd] at h
          split at h
          · rw [Option.some_inj, Prod.mk.injEq] at h
            obtain ⟨h1, h2⟩ := h
            rw [← h1]
            simp
          · cases h
        · rw [if_neg hd] at h
          cases h
      · cases h
    · rw [if_neg hk] at h
      cases h

theorem tokenizeF_fuel (nk : Bool) :
    ∀ (f1 : Nat) (cs : List Char) (f2 : Nat),
      cs.length < f1 → cs.length < f2 →
      tokenizeF nk f1 cs = tokenizeF nk f2 cs := by
  intro f1
  induction f1 with
  | zero => intro cs f2 h1 h2; omega
  | succ a ih =>
    intro cs f2 h1 h2
    cases f2 with
    | zero => omega
    | succ b =>
      simp only [tokenizeF]
      cases hm : tokMatch cs with
      | some t =>
        obtain ⟨k, v, r⟩ := t
        simp only [hm]
        have hr : r.length < cs.length := tokMatch_length cs k v r hm
        have hd : (r.dropWhile isPySpace).length ≤ r.length := dropWhile_length_le _ _
        rw [ih (r.dropWhile isPySpace) b (by omega) (by omega)]
      | none =>
        simp only [hm]
        by_cases hre : (cs.dropWhile (fun c => c != ' ')).isEmpty = true
        · rw [if_pos hre, if_pos hre]
        · rw [Bool.not_eq_true] at hre
          rw [if_neg (by simp [hre]), if_neg (by simp [hre])]
          have hrl : (cs.dropWhile (fun c => c != ' ')).length ≤ cs.length :=
            dropWhile_length_le _ _
          have hne : cs.dropWhile (fun c => c != ' ') ≠ [] := by
            intro hnil
            rw [hnil] at hre
            simp at hre
          have hpos : 0 < (cs.dropWhile (fun c => c != ' ')).length :=
            List.length_pos.mpr hne
          have htail : ((cs.dropWhile (fun c => c != ' ')).tail).length =
              (cs.dropWhile (fun c => c != ' ')).length - 1 := List.length_tail _
          have hdd : (((cs.dropWhile (fun c => c != ' ')).tail).dropWhile isPySpace).length ≤
              ((cs.dropWhile (fun c => c != ' ')).tail).length := dropWhile_length_le _ _
          rw [ih _ b (by omega) (by omega)]

theorem tokenizeF_eq_tokenize (nk : Bool) (n : Nat) (cs : List Char)
    (h : cs.length < n) : tokenizeF nk n cs = tokenize nk cs :=
  tokenizeF_fuel nk n cs (cs.length + 1) h (Nat.lt_succ_self _)

theorem tokenize_eq (nk : Bool) (cs : List Char) :
    tokenize nk cs =
      (match tokMatch cs with
       | some (k, v, r) => (normKey nk k, v) :: tokenize nk (r.dropWhile isPySpace)
       | Option.none =>
         if (cs.dropWhile (fun c => c != ' ')).isEmpty then []
         else tokenize nk ((cs.dropWhile (fun c => c != ' ')).tail.dropWhile isPySpace)) := by
  conv_lhs => rw [← tokenizeF_eq_tokenize nk (cs.length + 1) cs (Nat.lt_succ_self _)]
  rw [tokenizeF]
  cases hm : tokMatch cs with
  | some t =>
    obtain ⟨k, v, r⟩ := t
    simp only [hm]
    have hr : r.length < cs.length := tokMatch_length cs k v r hm
    have hd : (r.dropWhile isPySpace).length ≤ r.length := dropWhile_length_le _ _
    rw [tokenizeF_eq_tokenize nk cs.length (r.dropWhile isPySpace) (by omega)]
  | none =>
    simp only [hm]
    by_cases hre : (cs.dropWhile (fun c => c != ' ')).isEmpty = true
    · rw [if_pos hre, if_pos hre]
    · rw [Bool.not_eq_true] at hre
      rw [if_neg (by simp [hre]), if_neg (by simp [hre])]
      have hrl : (cs.dropWhile (fun c => c != ' ')).length ≤ cs.length :=
        dropWhile_length_le _ _
      have hne : cs.dropWhile (fun c => c != ' ') ≠ [] := by
        intro hnil
        rw [hnil] at hre
        simp at hre
      have hpos : 0 < (cs.dropWhile (fun c => c != ' ')).length :=
        List.length_pos.mpr hne
      have htail : ((cs.dropWhile (fun c => c != ' ')).tail).length =
          (cs.dropWhile (fun c => c != ' ')).length - 1 := List.length_tail _
      have hdd : (((cs.dropWhile (fun c => c != ' ')).tail).dropWhile isPySpace).length ≤
          ((cs.dropWhile (fun c => c != ' ')).tail).length := dropWhile_length_le _ _
      rw [tokenizeF_eq_tokenize nk cs.length
        (((cs.dropWhile (fun c => c != ' ')).tail).dropWhile isPySpace) (by omega)]

theorem normKey_ne (nk : Bool) (k : List Char) (h : k ≠ []) : normKey nk k ≠ "" := by
  unfold normKey
  cases nk with
  | true =>
    simp only [if_true]
    intro hc
    have hdata := congrArg String.data hc
    have : k.map Char.toLower = [] := hdata
    rw [List.map_eq_nil_iff] at this
    exact h this
  | false =>
    simp only [Bool.false_eq_true, if_false]
    intro hc
    have hdata := congrArg String.data hc
    exact h hdata

theorem tokenizeF_keys (nk : Bool) :
    ∀ (fuel : Nat) (cs : List Char) (p : String × String),
      p ∈ tokenizeF nk fuel cs → p.1 ≠ "" := by
  intro fuel
  induction fuel with
  | zero => intro cs p h; simp [tokenizeF] at h
  | succ m ih =>
    intro cs p h
    rw [tokenizeF] at h
    cases hm : tokMatch cs with
    | some t =>
      obtain ⟨k, v, r⟩ := t
      simp only [hm] at h
      rcases List.mem_cons.mp h with heq | hmem
      · rw [heq]
        exact normKey_ne nk k (tokMatch_key_ne cs k v r hm)
      · exact ih _ p hmem
    | none =>
      simp only [hm] at h
      by_cases hre : (cs.dropWhile (fun c => c != ' ')).isEmpty = true
      · rw [if_pos hre] at h
        cases h
      · rw [if_neg hre] at h
        exact ih _ p h

theorem tokenize_keys (nk : Bool) (cs : List Char) (p : String × String)
    (h : p ∈ tokenize nk cs) : p.1 ≠ "" :=
  tokenizeF_keys nk (cs.length + 1) cs p h

/-! ### Timestamp-region and `prepare` lemmas -/

theorem tsMatch_length {cs : List Char} (h : tsMatch cs = true) : cs.length = 19 := by
  unfold tsMatch at h
  split at h
  · simp
  · cases h

theorem tsMatch_head_digit {cs : List Char} (h : tsMatch cs = true) :
    ∃ c rest, cs = c :: rest ∧ c.isDigit = true := by
  unfold tsMatch at h
  split at h
  · rename_i y1 y2 y3 y4 h1 m1 m2 h2 d1 d2 sp a1 a2 c1 b1 b2 c2 e1 e2
    simp only [Bool.and_eq_true] at h
    exact ⟨y1, _, rfl, h.1.1.1.1.1.1.1.1.1.1.1.1.1.1.1.1.1.1⟩
  · cases h

theorem digit_not_pyspace {c : Char} (h : c.isDigit = true) : isPySpace c = false := by
  have h1 : c ≠ ' ' := by intro he; subst he; exact absurd h (by decide)
  have h2 : c ≠ '\t' := by intro he; subst he; exact absurd h (by decide)
  have h3 : c ≠ '\n' := by intro he; subst he; exact absurd h (by decide)
  have h4 : c ≠ '\r' := by intro he; subst he; exact absurd h (by decide)
  have h5 : c ≠ '\x0b' := by intro he; subst he; exact absurd h (by decide)
  have h6 : c ≠ '\x0c' := by intro he; subst he; exact absurd h (by decide)
  unfold isPySpace
  simp [h1, h2, h3, h4, h5, h6]

theorem prepare_of_tsMatch (line : PyObj) (ab : Bool)
    (h : tsMatch ((lineChars line).take 19) = true) :
    prepare line ab = some (Val.vstr ⟨(lineChars line).take 19⟩,
      ((lineChars line).drop 19).dropWhile isPySpace) := by
  have hlen19 : ((lineChars line).take 19).length = 19 := tsMatch_length h
  have hlen : 19 ≤ (lineChars line).length := by
    rw [List.length_take] at hlen19
    omega
  have hnb : (lineChars line).all isPySpace = false := by
    obtain ⟨c, rest, hcr, hd⟩ := tsMatch_head_digit h
    have hcs : lineChars line = c :: (rest ++ (lineChars line).drop 19) := by
      conv_lhs => rw [← List.take_append_drop 19 (lineChars line)]
      rw [hcr, List.cons_append]
    rw [hcs, List.all_cons, digit_not_pyspace hd, Bool.false_and]
  simp only [prepare]
  rw [if_neg (by rw [hnb]; exact Bool.false_ne_true), if_neg (by omega), if_pos h]

/-! ### `buildRecord` and `parse_log_line` lemmas -/

theorem buildRecord_some_of_has_kv (nk cd : Bool) (tsv : Val) (rest : List Char)
    (h : has_kv ((tokenize nk rest).foldl (mergeToken cd) [("timestamp", tsv)]) = true) :
    buildRecord nk cd tsv rest =
      some ((tokenize nk rest).foldl (mergeToken cd) [("timestamp", tsv)]) := by
  simp only [buildRecord]
  rw [if_pos h]

theorem buildRecord_some_of_ts (nk cd : Bool) (tsv : Val) (rest : List Char) {v : Val}
    (hl : lookupA ((tokenize nk rest).foldl (mergeToken cd) [("timestamp", tsv)])
      "timestamp" = some v)
    (hv : v ≠ Val.vnone) :
    buildRecord nk cd tsv rest =
      some ((tokenize nk rest).foldl (mergeToken cd) [("timestamp", tsv)]) := by
  simp only [buildRecord]
  by_cases hk : has_kv ((tokenize nk rest).foldl (mergeToken cd) [("timestamp", tsv)]) = true
  · rw [if_pos hk]
  · rw [if_neg hk, hl]
    cases v with
    | vnone => exact absurd rfl hv
    | vstr s => rfl
    | vlist l => rfl

theorem parse_blank (line : PyObj) (opts : ParseOpts)
    (h : (lineChars line).all isPySpace = true) :
    parse_log_line line opts = Option.none := by
  unfold parse_log_line
  have hp : prepare line opts.allow_blank_timestamp = Option.none := by
    simp only [prepare]
    rw [if_pos h]
  rw [hp]

theorem all_rstrip (line : PyObj) (h : (pyStr line).data.all isPySpace = true) :
    (lineChars line).all isPySpace = true := by
  unfold lineChars rstripNl
  rw [List.all_eq_true] at h ⊢
  intro c hc
  apply h
  have h1 : c ∈ (pyStr line).data.reverse.dropWhile (fun c => c == '\n') :=
    List.mem_reverse.mp hc
  have h2 : List.Sublist ((pyStr line).data.reverse.dropWhile (fun c => c == '\n'))
      ((pyStr line).data.reverse) := List.dropWhile_sublist _
  exact List.mem_reverse.mp (h2.subset h1)

/-! ### Aggregator lemmas -/

theorem aggStep_facts (st : AccState) (line : PyObj) :
    (aggStep st line).seen + (aggStep st line).skipped = st.seen + st.skipped + 1 ∧
    (aggStep st line).counted + st.seen ≤ st.counted + (aggStep st line).seen := by
  unfold aggStep
  cases hp : parse_log_line line aggOpts with
  | none => exact ⟨by dsimp only; omega, by dsimp only; omega⟩
  | some parsed =>
    simp only []
    by_cases hf : isFail parsed = true
    · rw [if_pos hf]
      exact ⟨by dsimp only; omega, by dsimp only; omega⟩
    · rw [if_neg hf]
      exact ⟨by dsimp only; omega, by dsimp only; omega⟩

theorem agg_fold_inv :
    ∀ (lines : List PyObj) (st : AccState),
      (lines.foldl aggStep st).seen + (lines.foldl aggStep st).skipped =
        st.seen + st.skipped + lines.length ∧
      (lines.foldl aggStep st).counted + st.seen ≤
        st.counted + (lines.foldl aggStep st).seen := by
  intro lines
  induction lines with
  | nil => intro st; simp
  | cons l rest ih =>
    intro st
    obtain ⟨h1, h2⟩ := ih (aggStep st l)
    obtain ⟨h3, h4⟩ := aggStep_facts st l
    rw [List.foldl_cons]
    constructor
    · simp only [List.length_cons]
      omega
    · omega

theorem aggStep_bump (u i : List (String × Nat)) (s c k : Nat) (l : PyObj) :
    aggStep ⟨u, i, s, c, k + 1⟩ l =
      ⟨(aggStep ⟨u, i, s, c, k⟩ l).users, (aggStep ⟨u, i, s, c, k⟩ l).ips,
       (aggStep ⟨u, i, s, c, k⟩ l).seen, (aggStep ⟨u, i, s, c, k⟩ l).counted,
       (aggStep ⟨u, i, s, c, k⟩ l).skipped + 1⟩ := by
  unfold aggStep
  cases hp : parse_log_line l aggOpts with
  | none => rfl
  | some parsed =>
    simp only []
    by_cases hf : isFail parsed = true
    · rw [if_pos hf, if_pos hf]
    · rw [if_neg hf, if_neg hf]

theorem fold_bump :
    ∀ (lines : List PyObj) (u i : List (String × Nat)) (s c k : Nat),
      lines.foldl aggStep ⟨u, i, s, c, k + 1⟩ =
      ⟨(lines.foldl aggStep ⟨u, i, s, c, k⟩).users,
       (lines.foldl aggStep ⟨u, i, s, c, k⟩).ips,
       (lines.foldl aggStep ⟨u, i, s, c, k⟩).seen,
       (lines.foldl aggStep ⟨u, i, s, c, k⟩).counted,
       (lines.foldl aggStep ⟨u, i, s, c, k⟩).skipped + 1⟩ := by
  intro lines
  induction lines with
  | nil => intro u i s c k; rfl
  | cons l rest ih =>
    intro u i s c k
    rw [List.foldl_cons, List.foldl_cons, aggStep_bump, ih]

theorem ctrGet_incr (c : List (String × Nat)) (u w : String) :
    ctrGet (ctrIncr c u) w = ctrGet c w + (if u = w then 1 else 0) := by
  unfold ctrIncr ctrGet
  by_cases hk : hasKeyA c u = true
  · rw [if_pos hk]
    obtain ⟨n, hn⟩ := hasKeyA_some hk
    by_cases hw : u = w
    · subst hw
      rw [lookupA_updA_self c u _ hn, hn]
      simp
    · rw [lookupA_updA_ne c u w _ (fun hh => hw hh.symm), if_neg hw]
      omega
  · have hk' : hasKeyA c u = false := by
      cases hck : hasKeyA c u
      · rfl
      · exact absurd hck hk
    rw [if_neg hk]
    have hnone : lookupA c u = Option.none := (lookupA_none_iff c u).mpr hk'
    by_cases hw : u = w
    · subst hw
      rw [lookupA_append, hnone]
      simp [lookupA]
    · rw [lookupA_append]
      cases hl : lookupA c w with
      | some n => simp [hw]
      | none => simp [lookupA, hw]

theorem ctrGet_fold (vs : List String) :
    ∀ (c : List (String × Nat)) (w : String),
      ctrGet (vs.foldl ctrIncr c) w = ctrGet c w + vs.count w := by
  induction vs with
  | nil => intro c w; simp
  | cons v rest ih =>
    intro c w
    rw [List.foldl_cons, ih, ctrGet_incr]
    by_cases hv : v = w
    · subst hv
      rw [List.count_cons_self, if_pos rfl]
      omega
    · rw [List.count_cons_of_ne (Ne.symm hv), if_neg hv]
      omega

theorem vstr_foldl_some :
    ∀ (l : List (String × String)) (s : String),
      ∃ s2, l.foldl (fun _ t => some (Val.vstr t.2)) (some (Val.vstr s)) =
        some (Val.vstr s2) := by
  intro l
  induction l with
  | nil => intro s; exact ⟨s, rfl⟩
  | cons t r ih =>
    intro s
    rw [List.foldl_cons]
    exact ih t.2

/-! ### Claim theorems -/

/-- C1: for every input line (string, `None`, or a non-string coerced to
text) and every combination of the four options, `parse_log_line`
terminates normally and returns either a parsed record or `None`; no
other outcome exists (the embedding is total, mirroring the source's
catch-all `except`). -/
theorem c1_parse_total (line : PyObj) (opts : ParseOpts) :
    (∃ rec : Fields, parse_log_line line opts = some rec) ∨
    parse_log_line line opts = Option.none := by
  cases h : parse_log_line line opts with
  | none => exact Or.inr rfl
  | some rec => exact Or.inl ⟨rec, rfl⟩

/-- C2: per successfully parsed line, the aggregator leaves `counted`
and both frequency maps unchanged when no status value upper-cases to
`FAIL`, and otherwise increments `counted` by one and each frequency
counter by the number of occurrences of that user/ip value among the
truthy values of the `user`/`ip` field. -/
theorem c2_agg_line_effect (st : AccState) (line : PyObj) (parsed : Fields)
    (hp : parse_log_line line aggOpts = some parsed) :
    (isFail parsed = false →
      (aggStep st line).counted = st.counted ∧
      (aggStep st line).users = st.users ∧
      (aggStep st line).ips = st.ips) ∧
    (isFail parsed = true →
      (aggStep st line).counted = st.counted + 1 ∧
      (∀ u, ctrGet (aggStep st line).users u =
        ctrGet st.users u + (truthyVals (asList (getVal parsed "user"))).count u) ∧
      (∀ ip, ctrGet (aggStep st line).ips ip =
        ctrGet st.ips ip + (truthyVals (asList (getVal parsed "ip"))).count ip)) := by
  unfold aggStep
  rw [hp]
  simp only []
  constructor
  · intro hf
    rw [if_neg (by rw [hf]; exact Bool.false_ne_true)]
    exact ⟨rfl, rfl, rfl⟩
  · intro hf
    rw [if_pos hf]
    refine ⟨rfl, fun u => ?_, fun ip => ?_⟩
    · exact ctrGet_fold _ _ _
    · exact ctrGet_fold _ _ _

/-- Witness for C2 at a concrete failed-login line. -/
theorem c2_agg_line_effect_witness :
    (aggStep ⟨[], [], 0, 0, 0⟩
      (PyObj.pystr "2024-11-25 08:30:12 status=FAIL user=admin ip=1.2.3.4")).counted = 0 + 1 :=
  (((c2_agg_line_effect ⟨[], [], 0, 0, 0⟩
      (PyObj.pystr "2024-11-25 08:30:12 status=FAIL user=admin ip=1.2.3.4")
      [("timestamp", Val.vstr "2024-11-25 08:30:12"), ("status", Val.vstr "FAIL"),
       ("user", Val.vstr "admin"), ("ip", Val.vstr "1.2.3.4")]
      (by decide)).2) (by decide)).1

/-- C3 counterexample: a line with a blank 19-character region and a
single `timestamp=x` token yields a record whose prefix did not match
the timestamp pattern and which has zero non-timestamp fields —
contradicting the claim as stated. -/
theorem c3_counterexample :
    parse_log_line (PyObj.pystr "                   timestamp=x") ⟨true, true, true, true⟩ =
      some [("timestamp", Val.vstr "x")] ∧
    tsMatch ((lineChars (PyObj.pystr "                   timestamp=x")).take 19) = false ∧
    has_kv [("timestamp", Val.vstr "x")] = false := by
  refine ⟨by decide, by decide, by decide⟩

/-- C3 (amended): if `parse_log_line` returns a record, the record has at
least one truthy non-timestamp field or its `timestamp` entry holds a
non-none value (the matched prefix, or a value written by a `timestamp`
token). -/
theorem c3_record_inv (line : PyObj) (opts : ParseOpts) (rec : Fields)
    (h : parse_log_line line opts = some rec) :
    (has_kv rec || tsResolved rec) = true := by
  unfold parse_log_line at h
  cases hp : prepare line opts.allow_blank_timestamp with
  | none =>
    rw [hp] at h
    cases h
  | some p =>
    obtain ⟨tsv, rest⟩ := p
    rw [hp] at h
    simp only [buildRecord] at h
    by_cases hk : has_kv ((tokenize opts.normalize_keys rest).foldl
        (mergeToken opts.collect_duplicates) [("timestamp", tsv)]) = true
    · rw [if_pos hk, Option.some_inj] at h
      subst h
      rw [hk, Bool.true_or]
    · rw [if_neg hk] at h
      cases hl : lookupA ((tokenize opts.normalize_keys rest).foldl
          (mergeToken opts.collect_duplicates) [("timestamp", tsv)]) "timestamp" with
      | none =>
        rw [hl] at h
        cases h
      | some v =>
        rw [hl] at h
        cases v with
        | vnone => cases h
        | vstr s =>
          simp only [Option.some_inj] at h
          subst h
          have hres : tsResolved ((tokenize opts.normalize_keys rest).foldl
              (mergeToken opts.collect_duplicates) [("timestamp", tsv)]) = true := by
            unfold tsResolved
            rw [hl]
          rw [hres, Bool.or_true]
        | vlist l2 =>
          simp only [Option.some_inj] at h
          subst h
          have hres : tsResolved ((tokenize opts.normalize_keys rest).foldl
              (mergeToken opts.collect_duplicates) [("timestamp", tsv)]) = true := by
            unfold tsResolved
            rw [hl]
          rw [hres, Bool.or_true]

/-- Witness for the amended C3 at a concrete parsed line. -/
theorem c3_record_inv_witness :
    (has_kv [("timestamp", Val.vstr "2024-11-25 08:30:12"), ("a", Val.vstr "1")] ||
     tsResolved [("timestamp", Val.vstr "2024-11-25 08:30:12"), ("a", Val.vstr "1")]) = true :=
  c3_record_inv (PyObj.pystr "2024-11-25 08:30:12 a=1") ⟨true, true, true, true⟩ _ (by decide)

/-- C4 counterexample: a line whose first 19 characters match the
timestamp pattern but which carries a `timestamp=x` token produces a
record whose timestamp entry is `x`, not the 19-character substring. -/
theorem c4_counterexample :
    parse_log_line (PyObj.pystr "2024-11-25 08:30:12 timestamp=x") ⟨true, true, true, true⟩ =
      some [("timestamp", Val.vstr "x")] ∧
    tsMatch ((lineChars (PyObj.pystr "2024-11-25 08:30:12 timestamp=x")).take 19) = true ∧
    Val.vstr "x" ≠ Val.vstr "2024-11-25 08:30:12" := by
  refine ⟨by decide, by decide, by decide⟩

/-- C4 (amended): for every option combination and every line whose
first 19 characters match the timestamp pattern, if no token of the
line's token stream has key `timestamp`, the returned record's
timestamp equals exactly that 19-character substring. -/
theorem c4_ts_prefix (nk cd wj ab : Bool) (line : PyObj)
    (hts : tsMatch ((lineChars line).take 19) = true)
    (hno : ∀ t ∈ tokenize nk (((lineChars line).drop 19).dropWhile isPySpace),
      t.1 ≠ "timestamp") :
    ∃ rec, parse_log_line line ⟨nk, cd, wj, ab⟩ = some rec ∧
      lookupA rec "timestamp" = some (Val.vstr ⟨(lineChars line).take 19⟩) := by
  have hp := prepare_of_tsMatch line ab hts
  have hfold : lookupA ((tokenize nk (((lineChars line).drop 19).dropWhile isPySpace)).foldl
      (mergeToken cd) [("timestamp", Val.vstr ⟨(lineChars line).take 19⟩)]) "timestamp" =
      some (Val.vstr ⟨(lineChars line).take 19⟩) := by
    rw [fold_lookup_ne cd "timestamp" _ _ hno]
    simp [lookupA]
  refine ⟨_, ?_, hfold⟩
  simp only [parse_log_line]
  rw [hp]
  simp only []
  exact buildRecord_some_of_ts nk cd _ _ hfold (by intro hc; cases hc)

/-- Witness for the amended C4 at a concrete line. -/
theorem c4_ts_prefix_witness :
    (parse_log_line (PyObj.pystr "2024-11-25 08:30:12 event=LOGIN")
      ⟨true, true, true, true⟩).isSome = true := by
  obtain ⟨rec, hp, hts⟩ := c4_ts_prefix true true true true
    (PyObj.pystr "2024-11-25 08:30:12 event=LOGIN") (by decide) (by decide)
  rw [hp]
  rfl

/-- C5 counterexample: for `k = "timestamp"` the claim fails — with
`collect_duplicates=true` a line carrying `timestamp=a timestamp=b`
yields entry `b` (the slot is overwritten), not the ordered list. -/
theorem c5_counterexample :
    parse_log_line (PyObj.pystr "2024-11-25 08:30:12 timestamp=a timestamp=b")
      ⟨true, true, true, true⟩ = some [("timestamp", Val.vstr "b")] ∧
    (tokenize true (((lineChars
        (PyObj.pystr "2024-11-25 08:30:12 timestamp=a timestamp=b")).drop 19).dropWhile
        isPySpace)).filter (fun t => t.1 == "timestamp") =
      [("timestamp", "a"), ("timestamp", "b")] ∧
    Val.vstr "b" ≠ Val.vlist [some "a", some "b"] := by
  refine ⟨by decide, by decide, by decide⟩

/-- C5 (amended): for every key `k` other than `timestamp` whose token
stream carries exactly the occurrences `k=v1` then `k=v2`, the record's
`k` entry is the ordered list `[v1, v2]` under
`collect_duplicates=true` and `v1` under `collect_duplicates=false`. -/
theorem c5_duplicate_policy (nk wj ab : Bool) (line : PyObj) (tsv : Val)
    (rest : List Char) (k v1 v2 : String)
    (hk : k ≠ "timestamp")
    (hprep : prepare line ab = some (tsv, rest))
    (hfil : (tokenize nk rest).filter (fun t => t.1 == k) = [(k, v1), (k, v2)]) :
    (∃ rec, parse_log_line line ⟨nk, true, wj, ab⟩ = some rec ∧
      lookupA rec k = some (Val.vlist [some v1, some v2])) ∧
    (∃ rec, parse_log_line line ⟨nk, false, wj, ab⟩ = some rec ∧
      lookupA rec k = some (Val.vstr v1)) := by
  have hmem : (k, v1) ∈ (tokenize nk rest).filter (fun t => t.1 == k) := by
    rw [hfil]
    exact List.mem_cons_self _ _
  have hmemtok : (k, v1) ∈ tokenize nk rest := List.mem_of_mem_filter hmem
  have hkne : k ≠ "" := tokenize_keys nk rest (k, v1) hmemtok
  have hkv : ∀ cd : Bool,
      has_kv ((tokenize nk rest).foldl (mergeToken cd) [("timestamp", tsv)]) = true := by
    intro cd
    rw [fold_has_kv]
    have hany : (tokenize nk rest).any (fun t => t.1 != "timestamp" && t.1 != "") = true := by
      refine List.any_eq_true.mpr ⟨(k, v1), hmemtok, ?_⟩
      rw [Bool.and_eq_true, bne_iff_ne, bne_iff_ne]
      exact ⟨hk, hkne⟩
    rw [hany, Bool.or_true]
  have hinit : lookupA ([("timestamp", tsv)] : Fields) k = Option.none := by
    simp [lookupA, Ne.symm hk]
  constructor
  · have hlook : lookupA ((tokenize nk rest).foldl (mergeToken true) [("timestamp", tsv)]) k =
        some (Val.vlist [some v1, some v2]) := by
      rw [fold_lookup_true k hk, hfil, hinit]
      rfl
    refine ⟨_, ?_, hlook⟩
    simp only [parse_log_line]
    rw [hprep]
    simp only []
    exact buildRecord_some_of_has_kv nk true tsv rest (hkv true)
  · have hlook : lookupA ((tokenize nk rest).foldl (mergeToken false) [("timestamp", tsv)]) k =
        some (Val.vstr v1) := by
      rw [fold_lookup_false k, hinit, hfil]
      rfl
    refine ⟨_, ?_, hlook⟩
    simp only [parse_log_line]
    rw [hprep]
    simp only []
    exact buildRecord_some_of_has_kv nk false tsv rest (hkv false)

/-- Witness for the amended C5 at a concrete line with a duplicated
`user` key. -/
theorem c5_duplicate_policy_witness :
    (parse_log_line (PyObj.pystr "2024-11-25 08:30:12 user=a user=b")
      ⟨true, true, true, true⟩).isSome = true ∧
    (parse_log_line (PyObj.pystr "2024-11-25 08:30:12 user=a user=b")
      ⟨true, false, true, true⟩).isSome = true := by
  obtain ⟨⟨r1, h1, hv1⟩, ⟨r2, h2, hv2⟩⟩ := c5_duplicate_policy true true true
    (PyObj.pystr "2024-11-25 08:30:12 user=a user=b")
    (Val.vstr "2024-11-25 08:30:12") (("user=a user=b" : String).data) "user" "a" "b"
    (by decide) (by decide) (by decide)
  refine ⟨?_, ?_⟩
  · rw [h1]
    rfl
  · rw [h2]
    rfl

/-- C6: for every finite input sequence, the snapshot satisfies
`seen + skipped = number of lines` and `counted ≤ seen`. -/
theorem c6_totals (lines : List PyObj) :
    (count_failed_logins lines).seen + (count_failed_logins lines).skipped = lines.length ∧
    (count_failed_logins lines).counted ≤ (count_failed_logins lines).seen := by
  obtain ⟨h1, h2⟩ := agg_fold_inv lines ⟨[], [], 0, 0, 0⟩
  dsimp only at h1 h2
  unfold count_failed_logins
  dsimp only
  exact ⟨by omega, by omega⟩

/-- C7: `total_fail` is the sum of the user map's counts when that map
is non-empty, and otherwise the sum of the ip map's counts. -/
theorem c7_total_fail (lines : List PyObj) :
    ((count_failed_logins lines).users ≠ [] →
      (count_failed_logins lines).total_fail = sumCtr (count_failed_logins lines).users) ∧
    ((count_failed_logins lines).users = [] →
      (count_failed_logins lines).total_fail = sumCtr (count_failed_logins lines).ips) := by
  unfold count_failed_logins
  dsimp only
  constructor
  · intro hne
    have hie : ((lines.foldl aggStep ⟨[], [], 0, 0, 0⟩).users).isEmpty = false := by
      cases hu : (lines.foldl aggStep ⟨[], [], 0, 0, 0⟩).users with
      | nil => exact absurd hu hne
      | cons e es => rfl
    rw [hie, if_neg Bool.false_ne_true]
  · intro he
    rw [he]
    simp

/-- Witness for C7 at a one-line input with a failed login. -/
theorem c7_total_fail_witness :
    (count_failed_logins
      [PyObj.pystr "2024-11-25 08:30:12 status=FAIL user=admin ip=1.2.3.4"]).total_fail =
    sumCtr (count_failed_logins
      [PyObj.pystr "2024-11-25 08:30:12 status=FAIL user=admin ip=1.2.3.4"]).users :=
  (c7_total_fail
    [PyObj.pystr "2024-11-25 08:30:12 status=FAIL user=admin ip=1.2.3.4"]).1 (by decide)

/-- C8: a malformed token is skipped (scan past it up to the next space,
then past the whitespace run) and tokenizing resumes; once the
19-character timestamp region matched the pattern, the line always
yields a record, and every token of the stream — including tokens
matched after a malformed one — contributes its key to the record. -/
theorem c8_malformed_recovery (nk cd wj ab : Bool) (line : PyObj)
    (hts : tsMatch ((lineChars line).take 19) = true) :
    (∀ cs : List Char, tokMatch cs = Option.none →
      tokenize nk cs =
        (if (cs.dropWhile (fun c => c != ' ')).isEmpty then []
         else tokenize nk ((cs.dropWhile (fun c => c != ' ')).tail.dropWhile isPySpace))) ∧
    (∃ rec, parse_log_line line ⟨nk, cd, wj, ab⟩ = some rec ∧
      ∀ t ∈ tokenize nk (((lineChars line).drop 19).dropWhile isPySpace),
        hasKeyA rec t.1 = true) := by
  constructor
  · intro cs hm
    rw [tokenize_eq nk cs, hm]
  · have hp := prepare_of_tsMatch line ab hts
    have hv : ∃ v, lookupA ((tokenize nk (((lineChars line).drop 19).dropWhile isPySpace)).foldl
        (mergeToken cd) [("timestamp", Val.vstr ⟨(lineChars line).take 19⟩)]) "timestamp" =
          some v ∧ v ≠ Val.vnone := by
      cases cd with
      | true =>
        rw [fold_lookup_ts_true]
        rw [show lookupA ([("timestamp", Val.vstr (⟨(lineChars line).take 19⟩ : String))] :
            Fields) "timestamp" = some (Val.vstr ⟨(lineChars line).take 19⟩) from by
          simp [lookupA]]
        obtain ⟨s2, hs2⟩ := vstr_foldl_some
          (((tokenize nk (((lineChars line).drop 19).dropWhile isPySpace))).filter
            (fun t => t.1 == "timestamp")) ⟨(lineChars line).take 19⟩
        exact ⟨Val.vstr s2, hs2, by intro hc; cases hc⟩
      | false =>
        rw [fold_lookup_false "timestamp"]
        rw [show lookupA ([("timestamp", Val.vstr (⟨(lineChars line).take 19⟩ : String))] :
            Fields) "timestamp" = some (Val.vstr ⟨(lineChars line).take 19⟩) from by
          simp [lookupA]]
        exact ⟨Val.vstr ⟨(lineChars line).take 19⟩, rfl, by intro hc; cases hc⟩
    obtain ⟨v, hvl, hvne⟩ := hv
    refine ⟨(tokenize nk (((lineChars line).drop 19).dropWhile isPySpace)).foldl
      (mergeToken cd) [("timestamp", Val.vstr ⟨(lineChars line).take 19⟩)], ?_, ?_⟩
    · simp only [parse_log_line]
      rw [hp]
      simp only []
      exact buildRecord_some_of_ts nk cd _ _ hvl hvne
    · intro t ht
      exact fold_hasKey cd _ _ t ht

/-- Witness for C8 at a line with a malformed token before a good one. -/
theorem c8_malformed_recovery_witness :
    (parse_log_line (PyObj.pystr "2024-11-25 08:30:12 junk!! user=admin")
      ⟨true, true, true, true⟩).isSome = true := by
  obtain ⟨hskip, ⟨rec, hp, hkeys⟩⟩ := c8_malformed_recovery true true true true
    (PyObj.pystr "2024-11-25 08:30:12 junk!! user=admin") (by decide)
  rw [hp]
  rfl

/-- C9 counterexample: feeding one all-blank line changes `skipped` — it
is not equal to what it would be if the line were absent. -/
theorem c9_counterexample :
    (count_failed_logins [PyObj.pystr "   "]).skipped = 1 ∧
    (count_failed_logins ([] : List PyObj)).skipped = 0 ∧
    (count_failed_logins [PyObj.pystr "   "]).skipped ≠
      (count_failed_logins ([] : List PyObj)).skipped := by
  refine ⟨by decide, by decide, by decide⟩

/-- C9 (amended): an empty or all-whitespace line parses to `None` under
every option combination, and feeding it to the aggregator leaves the
user and ip maps, `total_fail`, `seen` and `counted` exactly as without
the line, while `skipped` exceeds the without-the-line value by one. -/
theorem c9_blank_line (line : PyObj) (pre post : List PyObj) (opts : ParseOpts)
    (h : (pyStr line).data.all isPySpace = true) :
    parse_log_line line opts = Option.none ∧
    (count_failed_logins (pre ++ line :: post)).users =
      (count_failed_logins (pre ++ post)).users ∧
    (count_failed_logins (pre ++ line :: post)).ips =
      (count_failed_logins (pre ++ post)).ips ∧
    (count_failed_logins (pre ++ line :: post)).total_fail =
      (count_failed_logins (pre ++ post)).total_fail ∧
    (count_failed_logins (pre ++ line :: post)).seen =
      (count_failed_logins (pre ++ post)).seen ∧
    (count_failed_logins (pre ++ line :: post)).counted =
      (count_failed_logins (pre ++ post)).counted ∧
    (count_failed_logins (pre ++ line :: post)).skipped =
      (count_failed_logins (pre ++ post)).skipped + 1 := by
  have hblank := all_rstrip line h
  have hnone : ∀ o : ParseOpts, parse_log_line line o = Option.none := fun o =>
    parse_blank line o hblank
  have hfold :
      (pre ++ line :: post).foldl aggStep ⟨[], [], 0, 0, 0⟩ =
      ⟨((pre ++ post).foldl aggStep ⟨[], [], 0, 0, 0⟩).users,
       ((pre ++ post).foldl aggStep ⟨[], [], 0, 0, 0⟩).ips,
       ((pre ++ post).foldl aggStep ⟨[], [], 0, 0, 0⟩).seen,
       ((pre ++ post).foldl aggStep ⟨[], [], 0, 0, 0⟩).counted,
       ((pre ++ post).foldl aggStep ⟨[], [], 0, 0, 0⟩).skipped + 1⟩ := by
    rw [List.foldl_append, List.foldl_append, List.foldl_cons]
    have hstep : aggStep (pre.foldl aggStep ⟨[], [], 0, 0, 0⟩) line =
        ⟨(pre.foldl aggStep ⟨[], [], 0, 0, 0⟩).users,
         (pre.foldl aggStep ⟨[], [], 0, 0, 0⟩).ips,
         (pre.foldl aggStep ⟨[], [], 0, 0, 0⟩).seen,
         (pre.foldl aggStep ⟨[], [], 0, 0, 0⟩).counted,
         (pre.foldl aggStep ⟨[], [], 0, 0, 0⟩).skipped + 1⟩ := by
      unfold aggStep
      rw [hnone aggOpts]
    rw [hstep, fold_bump]
  unfold count_failed_logins
  dsimp only
  rw [hfold]
  exact ⟨hnone opts, rfl, rfl, rfl, rfl, rfl, rfl⟩

/-- Witness for the amended C9 with one blank line and empty context. -/
theorem c9_blank_line_witness :
    parse_log_line (PyObj.pystr " ") ⟨true, true, true, true⟩ = Option.none ∧
    (count_failed_logins [PyObj.pystr " "]).skipped =
      (count_failed_logins ([] : List PyObj)).skipped + 1 := by
  have h := c9_blank_line (PyObj.pystr " ") [] [] ⟨true, true, true, true⟩ (by decide)
  exact ⟨h.1, h.2.2.2.2.2.2⟩

/-- C10: the resolved timestamp and the field map share the single
`timestamp` slot.  When the token stream carries `timestamp` tokens and
`collect_duplicates=true`, the last such token's value overwrites the
slot (stored as a scalar, with exactly one `timestamp` entry in the
record), such tokens never satisfy the non-timestamp side of the
empty-record check, and with `collect_duplicates=false` the token
values are discarded in favour of the original timestamp value. -/
theorem c10_ts_namespace (nk wj ab : Bool) (line : PyObj) (tsv : Val) (rest : List Char)
    (l : List (String × String)) (tk tv : String)
    (hprep : prepare line ab = some (tsv, rest))
    (hfil : (tokenize nk rest).filter (fun t => t.1 == "timestamp") = l)
    (hlast : l.getLast? = some (tk, tv)) :
    parse_log_line line ⟨nk, true, wj, ab⟩ =
      some ((tokenize nk rest).foldl (mergeToken true) [("timestamp", tsv)]) ∧
    lookupA ((tokenize nk rest).foldl (mergeToken true) [("timestamp", tsv)]) "timestamp" =
      some (Val.vstr tv) ∧
    countTs ((tokenize nk rest).foldl (mergeToken true) [("timestamp", tsv)]) = 1 ∧
    has_kv ((tokenize nk rest).foldl (mergeToken true) [("timestamp", tsv)]) =
      (tokenize nk rest).any (fun t => t.1 != "timestamp" && t.1 != "") ∧
    lookupA ((tokenize nk rest).foldl (mergeToken false) [("timestamp", tsv)]) "timestamp" =
      some tsv := by
  have hlook : lookupA ((tokenize nk rest).foldl (mergeToken true)
      [("timestamp", tsv)]) "timestamp" = some (Val.vstr tv) := by
    rw [fold_lookup_ts_true, hfil]
    exact foldl_last_vstr l _ (tk, tv) hlast
  refine ⟨?_, hlook, ?_, ?_, ?_⟩
  · simp only [parse_log_line]
    rw [hprep]
    simp only []
    exact buildRecord_some_of_ts nk true tsv rest hlook (by intro hc; cases hc)
  · have hc := fold_countTs true (tokenize nk rest) [("timestamp", tsv)] (by simp [hasKeyA])
    rw [hc.1]
    rfl
  · rw [fold_has_kv]
    rw [show has_kv ([("timestamp", tsv)] : Fields) = false from by
      simp [has_kv], Bool.false_or]
  · rw [fold_lookup_false "timestamp"]
    rw [show lookupA ([("timestamp", tsv)] : Fields) "timestamp" = some tsv from by
      simp [lookupA]]

/-- Witness for C10 at a concrete line carrying a timestamp token. -/
theorem c10_ts_namespace_witness :
    (parse_log_line (PyObj.pystr "2024-11-25 08:30:12 timestamp=zzz")
      ⟨true, true, true, true⟩).isSome = true := by
  have h := c10_ts_namespace true true true (PyObj.pystr "2024-11-25 08:30:12 timestamp=zzz")
    (Val.vstr "2024-11-25 08:30:12") (("timestamp=zzz" : String).data)
    [("timestamp", "zzz")] "timestamp" "zzz" (by decide) (by decide) (by decide)
  rw [h.1]
  rfl

end AuthLog
